import Mathlib

/-!
Shallow embedding of the ccl concurrent-container library, single-threaded
(sequential) semantics. Machine integers are modelled as Nat with explicit
truncation where overflow matters; fallible paths (panics, shift overflow,
out-of-bounds unchecked indexing, unbounded recursion) return Option.
-/

set_option autoImplicit false
set_option linter.unusedSectionVars false
set_option linter.unusedVariables false

namespace Ccl

/-! ## Hash trie (nestedmap/raw.rs)

A slot of a table (an `Atomic<Bucket<K, V>>`) is either null, a leaf or a
branch; the null pointer is inlined as the `Bucket.null` constructor. A
`Table { nonce, buckets }` is embedded as the `Bucket.branch nonce buckets`
node; `TABLE_SIZE = 32` children are a total function from `Fin 32`. The
per-leaf `alloc_tag` only selects an allocator pool and does not affect map
semantics, so it is omitted from the leaf payload. The keyed hasher
`util::hash_with_nonce` is an external collaborator, passed as a parameter
`hash : Nat → K → Nat` (nonce, key). The per-table random nonces drawn by
`Table::empty` are supplied by a list `ns` consumed by the recursive
`with_two_entries` constructor; an empty supply models the unbounded
collision recursion the source cannot rule out, making insert fallible. -/

inductive Bucket (K V : Type) where
  | null : Bucket K V
  | leaf (key : K) (value : V) : Bucket K V
  | branch (nonce : Nat) (buckets : Fin 32 → Bucket K V) : Bucket K V

variable {K V : Type} [DecidableEq K]

/-- The slot index of a key in a table: `hash_with_nonce(key, nonce) % TABLE_SIZE`. -/
def slotOf (hash : Nat → K → Nat) (nonce : Nat) (key : K) : Fin 32 :=
  ⟨hash nonce key % 32, Nat.mod_lt _ (by decide)⟩

/-- Embeds `Table::get` (raw.rs): descend by slot index; null is absent, a leaf
is compared by key, a branch recurses. -/
def bucketFind (hash : Nat → K → Nat) (key : K) : Bucket K V → Option V
  | .null => none
  | .leaf k0 v0 => if k0 = key then some v0 else none
  | .branch nonce buckets => bucketFind hash key (buckets (slotOf hash nonce key))

/-- Embeds `Table::with_two_entries` (raw.rs): a fresh table with a fresh nonce
holding the two given leaves; when they collide at this level, a nested table
is built recursively. The first pair is `entry_1` (the previous occupant), the
second is `entry_2` (the new entry). Returns none when the nonce supply runs
out, modelling the unbounded collision recursion. -/
def withTwoEntries (hash : Nat → K → Nat) :
    List Nat → K × V → K × V → Option (Bucket K V)
  | [], _, _ => none
  | n :: ns, (k1, v1), (k2, v2) =>
    let p1 := slotOf hash n k1
    let p2 := slotOf hash n k2
    if p1 = p2 then
      (withTwoEntries hash ns (k1, v1) (k2, v2)).map
        (fun inner => .branch n (Function.update (fun _ => .null) p1 inner))
    else
      some (.branch n
        (Function.update (Function.update (fun _ => .null) p1 (.leaf k1 v1)) p2 (.leaf k2 v2)))

/-- Embeds `Table::insert` (raw.rs), sequential semantics: the CAS from null
succeeds exactly when the slot is null; otherwise the occupant is inspected: a
branch recurses, a leaf with the same key is replaced, a leaf with another key
is promoted together with the new entry into a fresh table built by
`withTwoEntries`. -/
def bucketInsert (hash : Nat → K → Nat) (key : K) (value : V) :
    Bucket K V → List Nat → Option (Bucket K V)
  | .branch nonce buckets, ns =>
    let s := slotOf hash nonce key
    match buckets s with
    | .null => some (.branch nonce (Function.update buckets s (.leaf key value)))
    | .leaf k0 v0 =>
      if key = k0 then
        some (.branch nonce (Function.update buckets s (.leaf key value)))
      else
        (withTwoEntries hash ns (k0, v0) (key, value)).map
          (fun nt => .branch nonce (Function.update buckets s nt))
    | .branch _ _ =>
      (bucketInsert hash key value (buckets s) ns).map
        (fun nb => .branch nonce (Function.update buckets s nb))
  | b, _ => some b

/-- Embeds `Table::remove` (raw.rs): descend by slot index; a branch recurses,
and a leaf slot is swapped to null WITHOUT comparing the leaf key to the
requested key, exactly as in the source. -/
def bucketRemove (hash : Nat → K → Nat) (key : K) : Bucket K V → Bucket K V
  | .branch nonce buckets =>
    let s := slotOf hash nonce key
    match buckets s with
    | .null => .branch nonce buckets
    | .leaf _ _ => .branch nonce (Function.update buckets s .null)
    | .branch _ _ => .branch nonce (Function.update buckets s (bucketRemove hash key (buckets s)))
  | b => b

/-- The key of the leaf that `Table::remove key` actually unlinks, if any:
the key stored in the leaf found at the end of the descent for `key`. -/
def removeVictim (hash : Nat → K → Nat) (key : K) : Bucket K V → Option K
  | .branch nonce buckets =>
    match buckets (slotOf hash nonce key) with
    | .null => none
    | .leaf k0 _ => some k0
    | .branch _ _ => removeVictim hash key (buckets (slotOf hash nonce key))
  | _ => none

/-- Embeds `Table::empty` plus the root of `NestedMap::new`: a table with the
given nonce and all 32 slots null. -/
def emptyTable (nonce : Nat) : Bucket K V := .branch nonce (fun _ => .null)

def Bucket.isBranch : Bucket K V → Prop
  | .branch _ _ => True
  | _ => False

/-! ## Hashbrown HashMap model

Each shard of the sharded map holds a stock `hashbrown::HashMap`, an external
collaborator. It is modelled as an association list with distinct keys kept
distinct by insert-replace; `get`, `insert`, `remove_entry`, `contains_key`
follow the standard finite-map semantics of that library. -/

def hmGet : List (K × V) → K → Option V
  | [], _ => none
  | (k0, v0) :: t, k => if k0 = k then some v0 else hmGet t k

def hmInsert : List (K × V) → K → V → List (K × V)
  | [], k, v => [(k, v)]
  | (k0, v0) :: t, k, v =>
    if k0 = k then (k, v) :: t else (k0, v0) :: hmInsert t k v

def hmRemove : List (K × V) → K → List (K × V)
  | [], _ => []
  | (k0, v0) :: t, k => if k0 = k then t else (k0, v0) :: hmRemove t k

def hmContains (m : List (K × V)) (k : K) : Bool :=
  (hmGet m k).isSome

/-! ## Sharded map DHashMap (dhashmap/mod.rs)

The struct holds `ncb` (log2 of the shard count), the boxed slice of
`RwLock<HashMap<K, V>>` shards (the locks are irrelevant to the sequential
semantics except in `try_get`, where the lock state is passed explicitly) and
the per-map random `hash_nonce`. The keyed 64-bit seahash is the pluggable
collaborator `hashK : Nat → K → Nat`, applied to the nonce and the key; its
result is truncated to 64 bits where the shift is taken. -/

structure DHashMap (K V : Type) where
  ncb : Nat
  submaps : List (List (K × V))
  hash_nonce : Nat

/-- Modelled from the spec: `util::ptr_size_bits()` is referenced by
`determine_map` but its definition is not part of the sources at hand; the
spec fixes the hash to 64 bits and the shift to `ptr_bits − k` with
`ptr_bits − 0 = 64`, i.e. the pointer width is 64 bits. -/
def ptr_size_bits : Nat := 64

/-- Embeds `DHashMap::new`: `2^n` empty shards (`1 << n` on usize, in range
for `n ≤ 63`), recording `ncb = n` and the random nonce (a parameter here). -/
def DHashMap.new (ncb nonce : Nat) : DHashMap K V :=
  ⟨ncb, List.replicate (2 ^ ncb) [], nonce⟩

/-- Embeds `DHashMap::determine_map`: the top `ncb` bits of the 64-bit keyed
hash, via `hash >> (ptr_size_bits() - ncb)`. The u64 shift by 64 or more and
the usize subtraction below zero are arithmetic overflows in Rust (a panic
under checked semantics, and for the shift a masked amount in release builds
that then indexes the shard slice out of bounds); both are modelled as none. -/
def determine_map (hashK : Nat → K → Nat) (m : DHashMap K V) (key : K) : Option Nat :=
  if m.ncb ≤ ptr_size_bits then
    let shift := ptr_size_bits - m.ncb
    if shift < 64 then some ((hashK m.hash_nonce key % 2 ^ 64) >>> shift) else none
  else none

/-- Embeds `DHashMap::insert`: route to the owning shard, write-lock it and
insert, replacing any prior value. The unchecked shard indexing is modelled
as none when out of bounds. -/
def DHashMap.insert (hashK : Nat → K → Nat) (m : DHashMap K V) (key : K) (value : V) :
    Option (DHashMap K V) :=
  (determine_map hashK m key).bind fun mapi =>
    if mapi < m.submaps.length then
      some ⟨m.ncb, m.submaps.set mapi (hmInsert (m.submaps.getD mapi []) key value), m.hash_nonce⟩
    else none

/-- Embeds `DHashMap::remove`: route to the owning shard, write-lock it and
`remove_entry`. -/
def DHashMap.remove (hashK : Nat → K → Nat) (m : DHashMap K V) (key : K) :
    Option (DHashMap K V) :=
  (determine_map hashK m key).bind fun mapi =>
    if mapi < m.submaps.length then
      some ⟨m.ncb, m.submaps.set mapi (hmRemove (m.submaps.getD mapi []) key), m.hash_nonce⟩
    else none

/-- Embeds `DHashMap::get`: route to the owning shard, read-lock it and look
the key up; the outer Option models the unchecked indexing, the inner one is
the result (none when absent, some v for a guarded reference to v). -/
def DHashMap.get (hashK : Nat → K → Nat) (m : DHashMap K V) (key : K) :
    Option (Option V) :=
  (determine_map hashK m key).bind fun mapi =>
    if mapi < m.submaps.length then
      some (hmGet (m.submaps.getD mapi []) key)
    else none

/-- Embeds `DHashMap::contains_key`: route to the owning shard, read-lock it
and check presence. -/
def DHashMap.contains_key (hashK : Nat → K → Nat) (m : DHashMap K V) (key : K) :
    Option Bool :=
  (determine_map hashK m key).bind fun mapi =>
    if mapi < m.submaps.length then
      some (hmContains (m.submaps.getD mapi []) key)
    else none

/-! ### Lock state and try_get -/

/-- State of one shard lock of parking_lot RwLock, as visible to try_read. -/
inductive LockState where
  | unlocked : LockState
  | readLocked (readers : Nat) : LockState
  | writeLocked : LockState
deriving DecidableEq

/-- A try_read on a parking_lot RwLock succeeds exactly when no writer holds
the lock at that moment. -/
def tryRead : LockState → Bool
  | .writeLocked => false
  | _ => true

inductive TryGetError where
  | InvalidKey : TryGetError
  | WouldBlock : TryGetError
deriving DecidableEq

/-- Embeds `DHashMap::try_get`: route to the owning shard; if its read lock
cannot be taken now return WouldBlock, else return the value when present and
InvalidKey otherwise. `locks` gives the momentary lock state per shard. -/
def DHashMap.try_get (hashK : Nat → K → Nat) (locks : Nat → LockState)
    (m : DHashMap K V) (key : K) : Option (Except TryGetError V) :=
  (determine_map hashK m key).bind fun mapi =>
    if mapi < m.submaps.length then
      if tryRead (locks mapi) then
        match hmGet (m.submaps.getD mapi []) key with
        | some v => some (Except.ok v)
        | none => some (Except.error TryGetError.InvalidKey)
      else some (Except.error TryGetError.WouldBlock)
    else none

/-! ### get_or_insert

The write section of `get_or_insert` (the code after the read lock is dropped
and the write lock is taken) is split into its own definition, because under
concurrency it may observe a state differing from the one the read section
saw; the re-check of presence lives there. The Bool records whether `default`
was inserted. -/

/-- Embeds the write-locked section of `DHashMap::get_or_insert`: re-check
presence under the write lock; insert `default` only when the key is still
absent, and return a guard to the stored value. -/
def DHashMap.get_or_insert_write (hashK : Nat → K → Nat) (m : DHashMap K V)
    (key : K) (default : V) : Option (V × DHashMap K V × Bool) :=
  (determine_map hashK m key).bind fun mapi =>
    if mapi < m.submaps.length then
      match hmGet (m.submaps.getD mapi []) key with
      | some v => some (v, m, false)
      | none =>
        some (default,
          ⟨m.ncb, m.submaps.set mapi (hmInsert (m.submaps.getD mapi []) key default),
            m.hash_nonce⟩,
          true)
    else none

/-- Embeds `DHashMap::get_or_insert`: read-lock the shard and return the
present value; otherwise drop the read lock and run the write section. -/
def DHashMap.get_or_insert (hashK : Nat → K → Nat) (m : DHashMap K V)
    (key : K) (default : V) : Option (V × DHashMap K V × Bool) :=
  (determine_map hashK m key).bind fun mapi =>
    if mapi < m.submaps.length then
      match hmGet (m.submaps.getD mapi []) key with
      | some v => some (v, m, false)
      | none => DHashMap.get_or_insert_write hashK m key default
    else none

/-! ### Operation traces for the insert/get/remove contract -/

inductive MapOp (K V : Type) where
  | ins (key : K) (value : V) : MapOp K V
  | rem (key : K) : MapOp K V

def applyOp (hashK : Nat → K → Nat) (m : DHashMap K V) : MapOp K V → Option (DHashMap K V)
  | .ins k v => m.insert hashK k v
  | .rem k => m.remove hashK k

def applyOps (hashK : Nat → K → Nat) (m : DHashMap K V) :
    List (MapOp K V) → Option (DHashMap K V)
  | [] => some m
  | op :: ops => (applyOp hashK m op).bind fun m1 => applyOps hashK m1 ops

/-- The value a sequence of operations leaves behind for a key, starting from
a given prior value: the last inserted value for the key, erased by a later
remove of the key, untouched by operations on other keys. -/
def specStep (k : K) (acc : Option V) : MapOp K V → Option V
  | .ins k0 v => if k0 = k then some v else acc
  | .rem k0 => if k0 = k then none else acc

def specLookup (ops : List (MapOp K V)) (k : K) : Option V :=
  ops.foldl (specStep k) none

/-- Well-formedness of a map state: the shard count matches `2^ncb`, the
construction parameter is in the range where shard addressing is defined,
and every shard table has pairwise distinct keys (as a hashbrown HashMap
does). -/
def DHashMap.Wf (m : DHashMap K V) : Prop :=
  m.submaps.length = 2 ^ m.ncb ∧ 1 ≤ m.ncb ∧ m.ncb ≤ 63 ∧
    ∀ s ∈ m.submaps, (s.map Prod.fst).Nodup

/-! ## Timed cache (timedcache.rs)

An entry is the tuple `(V, Instant, bool)` of value, insertion instant and
clean bit (`v.2 = true` means the external store reflects the value).
Instants are Nats; `Instant::duration_since` of a not-later instant is Nat
subtraction. The backing `DHashMap` storage is modelled as the union of its
shards, one association list: `submaps_write().for_each(iter_mut)` touches
every entry of every shard and `retain` filters every shard, so which shard
an entry lives in never matters to `do_check`, `load_item` or `map_mut`. The
user supplied `load_item_fn` and `save_item_fn` are parameters; `do_check`
additionally returns the list of keys `save_item_fn` was invoked on. -/

structure TimedCache (K V : Type) where
  storage : List (K × V × Nat × Bool)
  last_saved : Nat
  last_purged : Nat
  valid_duration : Nat
  valid_check_interval : Nat
  save_interval : Nat

/-- Embeds `TimedCache::load_item`: when the key is absent and the load
function produces a value, insert it with the current instant and a set clean
bit. -/
def TimedCache.load_item (load : K → Option V) (now : Nat)
    (c : TimedCache K V) (k : K) : TimedCache K V :=
  if (hmGet c.storage k).isSome then c
  else
    match load k with
    | some v => { c with storage := hmInsert c.storage k (v, now, true) }
    | none => c

/-- Embeds `TimedCache::map_mut`: ensure the entry is loaded, then under the
write guard clear the clean bit and apply the closure to the value. The
unwrap of a failed load is the none case. -/
def TimedCache.map_mut (load : K → Option V) (now : Nat) (f : V → V)
    (c : TimedCache K V) (k : K) : Option (TimedCache K V) :=
  let c1 := c.load_item load now k
  match hmGet c1.storage k with
  | none => none
  | some (v, t, _) =>
    some { c1 with storage := hmInsert c1.storage k (f v, t, false) }

/-- Embeds the closure `check_save_item` of `TimedCache::do_check`: when the
entry is dirty and saving it succeeds, set the clean bit. -/
def check_save_item (save : K → V → Bool) :
    K × V × Nat × Bool → K × V × Nat × Bool
  | (k, v, t, clean) => if !clean && save k v then (k, v, t, true) else (k, v, t, clean)

/-- Embeds the closure `check_to_evict` of `TimedCache::do_check`: the entry
is older than the validity window and its clean bit is set. -/
def check_to_evict (now valid : Nat) : K × V × Nat × Bool → Bool
  | (_, _, t, clean) => decide (now - t > valid) && clean

/-- Embeds `TimedCache::do_check`: under the two timestamp mutexes, when the
save interval has elapsed run `check_save_item` on every entry of every shard
(recording the keys on which `save_item_fn` is invoked, i.e. the dirty ones),
and when the check interval has elapsed retain exactly the entries
`check_to_evict` rejects. -/
def TimedCache.do_check (save : K → V → Bool) (now : Nat) (c : TimedCache K V) :
    TimedCache K V × List K :=
  let doSave := decide (now - c.last_saved > c.save_interval)
  let storage1 := if doSave then c.storage.map (check_save_item save) else c.storage
  let savedLog := if doSave then (c.storage.filter (fun e => !e.2.2.2)).map Prod.fst else []
  let doPurge := decide (now - c.last_purged > c.valid_check_interval)
  let storage2 :=
    if doPurge then storage1.filter (fun e => !check_to_evict now c.valid_duration e)
    else storage1
  (⟨storage2,
    if doSave then now else c.last_saved,
    if doPurge then now else c.last_purged,
    c.valid_duration, c.valid_check_interval, c.save_interval⟩,
   savedLog)

/-! ## Uniform slab allocator (uniform_allocator.rs)

Only the fields of a segment that `has_space` reads are needed: the length
and the capacity of its `Slab` of objects (a slab never has more live objects
than capacity). `MemoryPool::alloc` is the unbounded search loop, embedded
with explicit fuel; a successful allocation would return the index of the
segment that admitted the reservation. -/

structure SlabSegment where
  len : Nat
  capacity : Nat

/-- Embeds `SlabSegment::has_space`, exactly as written in the source:
`objects.len().saturating_sub(objects.capacity())`; Nat subtraction is
saturating subtraction. -/
def SlabSegment.has_space (s : SlabSegment) : Nat :=
  s.len - s.capacity

def SEGMENT_SIZE : Nat := 128

/-- Embeds `SlabSegment::new(capacity)`: an empty slab pre-sized to the given
capacity. -/
def SlabSegment.new (capacity : Nat) : SlabSegment :=
  ⟨0, capacity⟩

/-- Embeds the loop of `MemoryPool::alloc`: scan segments from `search_idx`;
reserve in the first one whose `has_space` is nonzero (returning its index;
the interior reservation and segment reordering do not matter before any
reservation happens); past the end, push a fresh `SEGMENT_SIZE` segment to
the front and restart the scan at index 0. Fuel bounds the otherwise
unbounded loop; none means the fuel ran out with no reservation made. -/
def poolAllocLoop : Nat → List SlabSegment → Nat → Option Nat
  | 0, _, _ => none
  | fuel + 1, segments, search_idx =>
    match segments[search_idx]? with
    | some segment =>
      if segment.has_space ≠ 0 then some search_idx
      else poolAllocLoop fuel segments (search_idx + 1)
    | none => poolAllocLoop fuel (SlabSegment.new SEGMENT_SIZE :: segments) 0

/-- Embeds `UniformAllocator::alloc`: select the pool by `tag % pool_count`
and run its allocation loop. -/
def uniformAlloc (pool_count : Nat) (pools : Nat → List SlabSegment)
    (fuel tag : Nat) : Option Nat :=
  poolAllocLoop fuel (pools (tag % pool_count)) 0

/-! ## Lock-free Treiber stack (stack.rs)

Sequentially every CAS succeeds on the first try, so the chain of nodes
reachable from head is a list: `push_with_guard` links a fresh node whose
next is the loaded head, `pop_with_guard` returns none when the loaded head
is null and otherwise swings head to next and moves the popped value out. -/

def ConcurrentStack (T : Type) := List T

/-- Embeds `ConcurrentStack::push_with_guard`, sequential semantics. -/
def stackPush {T : Type} (s : ConcurrentStack T) (data : T) : ConcurrentStack T :=
  data :: s

/-- Embeds `ConcurrentStack::pop_with_guard`, sequential semantics: the
popped value (if any) together with the stack left behind. -/
def stackPop {T : Type} : ConcurrentStack T → Option T × ConcurrentStack T
  | [] => (none, [])
  | head :: next => (some head, next)

/-! ## Concrete instances used by witnesses -/

/-- Example cache for the timed-cache witnesses: entry 1 is old and clean,
entry 2 is old and dirty, entry 3 is young and clean; validity window 50,
check interval 10, save interval 1000 (so only the purge pass runs at
instant 100 in the C5 witness). -/
def c5cache : TimedCache Nat Nat :=
  ⟨[(1, 10, 0, true), (2, 20, 0, false), (3, 30, 95, true)], 0, 0, 50, 10, 1000⟩

def c5save : Nat → Nat → Bool := fun _ _ => false

/-- Example cache for the C6 witness: two dirty entries and a clean one;
save interval 5 has elapsed at instant 100; saving succeeds only for key 2. -/
def c6cache : TimedCache Nat Nat :=
  ⟨[(1, 10, 0, false), (2, 20, 0, false), (3, 30, 95, true)], 0, 0, 1000, 1000, 5⟩

def c6save : Nat → Nat → Bool := fun k _ => decide (k = 2)

/-- The pluggable keyed hasher used by the concrete witnesses: it ignores
the nonce and hashes a Nat key to itself. -/
def natHash : Nat → Nat → Nat := fun _ k => k

/-- The trie obtained by inserting key 0 with value 7 into an empty table
with nonce 0 under `natHash`: a single leaf in slot 0. -/
def c2t1 : Bucket Nat Nat :=
  Bucket.branch 0
    (Function.update (fun _ => Bucket.null) (slotOf natHash 0 0) (Bucket.leaf 0 7))

/-! ## Association list lemmas -/

theorem hmGet_hmInsert_same (m : List (K × V)) (k : K) (v : V) :
    hmGet (hmInsert m k v) k = some v := by
  induction m with
  | nil => simp [hmInsert, hmGet]
  | cons hd t ih =>
    obtain ⟨k0, v0⟩ := hd
    by_cases h : k0 = k
    · subst h; simp [hmInsert, hmGet]
    · simp [hmInsert, hmGet, h, ih]

theorem hmGet_hmInsert_ne (m : List (K × V)) (k q : K) (v : V) (hne : k ≠ q) :
    hmGet (hmInsert m k v) q = hmGet m q := by
  induction m with
  | nil => simp [hmInsert, hmGet, hne]
  | cons hd t ih =>
    obtain ⟨k0, v0⟩ := hd
    by_cases h : k0 = k
    · subst h; simp [hmInsert, hmGet, hne]
    · simp [hmInsert, hmGet, h, ih]

theorem hmGet_eq_none_of_not_mem (m : List (K × V)) (k : K)
    (h : k ∉ m.map Prod.fst) : hmGet m k = none := by
  induction m with
  | nil => rfl
  | cons hd t ih =>
    obtain ⟨k0, v0⟩ := hd
    simp only [List.map_cons, List.mem_cons] at h
    push_neg at h
    simp [hmGet, Ne.symm h.1, ih h.2]

theorem hmGet_hmRemove_same (m : List (K × V)) (k : K)
    (hnodup : (m.map Prod.fst).Nodup) :
    hmGet (hmRemove m k) k = none := by
  induction m with
  | nil => simp [hmRemove, hmGet]
  | cons hd t ih =>
    obtain ⟨k0, v0⟩ := hd
    simp only [List.map_cons, List.nodup_cons] at hnodup
    by_cases h : k0 = k
    · subst h
      simp only [hmRemove, if_true, ite_true]
      exact hmGet_eq_none_of_not_mem t k0 hnodup.1
    · simp [hmRemove, hmGet, h, ih hnodup.2]

theorem mem_keys_hmInsert (m : List (K × V)) (k : K) (v : V) (q : K)
    (hq : q ∈ (hmInsert m k v).map Prod.fst) : q ∈ m.map Prod.fst ∨ q = k := by
  induction m with
  | nil => exact Or.inr (by simpa [hmInsert] using hq)
  | cons hd t ih =>
    obtain ⟨k0, v0⟩ := hd
    by_cases h : k0 = k
    · rcases (by simpa [hmInsert, h] using hq : q = k ∨ q ∈ t.map Prod.fst) with h3 | h3
      · exact Or.inr h3
      · exact Or.inl (by simp [h3])
    · rcases (by simpa [hmInsert, h] using hq : q = k0 ∨ q ∈ (hmInsert t k v).map Prod.fst)
        with h3 | h3
      · exact Or.inl (by simp [h3])
      · rcases ih h3 with h4 | h4
        · exact Or.inl (by simp [h4])
        · exact Or.inr h4

theorem hmInsert_keys_nodup (m : List (K × V)) (k : K) (v : V)
    (hnodup : (m.map Prod.fst).Nodup) :
    ((hmInsert m k v).map Prod.fst).Nodup := by
  induction m with
  | nil => simp [hmInsert]
  | cons hd t ih =>
    obtain ⟨k0, v0⟩ := hd
    simp only [List.map_cons, List.nodup_cons] at hnodup
    by_cases h : k0 = k
    · subst h
      simpa [hmInsert] using hnodup
    · simp only [hmInsert, h, if_false, ite_false, List.map_cons, List.nodup_cons]
      refine ⟨?_, ih hnodup.2⟩
      intro hc
      rcases mem_keys_hmInsert t k v k0 hc with h4 | h4
      · exact hnodup.1 h4
      · exact h h4

theorem hmRemove_keys_nodup (m : List (K × V)) (k : K)
    (hnodup : (m.map Prod.fst).Nodup) :
    ((hmRemove m k).map Prod.fst).Nodup := by
  induction m with
  | nil => simp [hmRemove]
  | cons hd t ih =>
    obtain ⟨k0, v0⟩ := hd
    simp only [List.map_cons, List.nodup_cons] at hnodup
    by_cases h : k0 = k
    · subst h; simpa [hmRemove] using hnodup.2
    · simp only [hmRemove, h, if_false, ite_false, List.map_cons, List.nodup_cons]
      refine ⟨?_, ih hnodup.2⟩
      intro hc
      have : k0 ∈ t.map Prod.fst := by
        rcases List.mem_map.mp hc with ⟨e, he, hfst⟩
        have hsub : e ∈ t := by
          clear ih hnodup hc hfst
          induction t with
          | nil => simp [hmRemove] at he
          | cons hd2 t2 ih2 =>
            by_cases h2 : hd2.1 = k
            · obtain ⟨k2, v2⟩ := hd2
              simp only at h2
              simp only [hmRemove, h2, if_true, ite_true] at he
              exact List.mem_cons_of_mem _ he
            · obtain ⟨k2, v2⟩ := hd2
              simp only at h2
              simp only [hmRemove, h2, if_false, ite_false] at he
              rcases List.mem_cons.mp he with h3 | h3
              · exact List.mem_cons.mpr (Or.inl h3)
              · exact List.mem_cons_of_mem _ (ih2 h3)
        exact List.mem_map.mpr ⟨e, hsub, hfst⟩
      exact hnodup.1 this

theorem hmGet_hmRemove_ne (m : List (K × V)) (k q : K) (hne : k ≠ q) :
    hmGet (hmRemove m k) q = hmGet m q := by
  induction m with
  | nil => simp [hmRemove, hmGet]
  | cons hd t ih =>
    obtain ⟨k0, v0⟩ := hd
    by_cases h : k0 = k
    · subst h; simp [hmRemove, hmGet, hne]
    · simp [hmRemove, hmGet, h, ih]

/-! ## Sharded map lemmas -/

theorem determine_map_congr (hashK : Nat → K → Nat) (m : DHashMap K V)
    (subs : List (List (K × V))) (q : K) :
    determine_map hashK ⟨m.ncb, subs, m.hash_nonce⟩ q = determine_map hashK m q := rfl

/-- Under a well-formed construction parameter the shard index is defined
and in bounds: the top `ncb` bits of a 64-bit value are below `2^ncb`. -/
theorem determine_map_lt (hashK : Nat → K → Nat) {m : DHashMap K V}
    (hwf : m.Wf) (key : K) :
    ∃ i, determine_map hashK m key = some i ∧ i < m.submaps.length := by
  obtain ⟨hlen, h1, h2, _⟩ := hwf
  have hle : m.ncb ≤ ptr_size_bits := by unfold ptr_size_bits; omega
  have hshift : ptr_size_bits - m.ncb < 64 := by unfold ptr_size_bits; omega
  refine ⟨(hashK m.hash_nonce key % 2 ^ 64) >>> (ptr_size_bits - m.ncb), ?_, ?_⟩
  · simp [determine_map, hle, hshift]
  · rw [hlen, Nat.shiftRight_eq_div_pow]
    apply Nat.div_lt_of_lt_mul
    calc hashK m.hash_nonce key % 2 ^ 64 < 2 ^ 64 := Nat.mod_lt _ (by positivity)
    _ = 2 ^ (ptr_size_bits - m.ncb) * 2 ^ m.ncb := by
        rw [← pow_add]
        congr 1
        unfold ptr_size_bits
        omega

theorem getD_set_shard (l : List (List (K × V))) (i j : Nat) (s : List (K × V))
    (hi : i < l.length) (hj : j < l.length) :
    (l.set i s).getD j [] = if i = j then s else l.getD j [] := by
  have hj2 : j < (l.set i s).length := by simpa using hj
  rw [List.getD_eq_getElem _ _ hj2, List.getD_eq_getElem _ _ hj]
  by_cases h : i = j
  · subst h
    simp [List.getElem_set_self]
  · rw [List.getElem_set_ne h]
    simp [h]

theorem mem_set_shard (l : List (List (K × V))) (i : Nat) (s : List (K × V))
    (t : List (K × V)) (ht : t ∈ l.set i s) : t ∈ l ∨ t = s := by
  induction l generalizing i with
  | nil => simp at ht
  | cons hd tl ih =>
    cases i with
    | zero =>
      rcases List.mem_cons.mp ht with h | h
      · exact Or.inr h
      · exact Or.inl (List.mem_cons_of_mem _ h)
    | succ n =>
      rcases List.mem_cons.mp ht with h | h
      · exact Or.inl (List.mem_cons.mpr (Or.inl h))
      · rcases ih n h with h2 | h2
        · exact Or.inl (List.mem_cons_of_mem _ h2)
        · exact Or.inr h2

theorem getD_mem {A : Type} (l : List A) (d : A) (i : Nat) (hi : i < l.length) :
    l.getD i d ∈ l := by
  rw [List.getD_eq_getElem _ _ hi]
  exact List.getElem_mem hi

/-- Evaluation of `DHashMap::get` once the shard index is known to be in
bounds: the lookup in the owning shard table. -/
theorem get_eval (hashK : Nat → K → Nat) (m : DHashMap K V) (q : K) (j : Nat)
    (hdet : determine_map hashK m q = some j) (hj : j < m.submaps.length) :
    m.get hashK q = some (hmGet (m.submaps.getD j []) q) := by
  rw [DHashMap.get, hdet]
  simp [hj]

/-- Effect of one trace operation: it succeeds on a well-formed map,
preserves well-formedness, and transforms the value `get` observes at any
key by `specStep`. -/
theorem applyOp_spec (hashK : Nat → K → Nat) {m : DHashMap K V} (hwf : m.Wf)
    (op : MapOp K V) :
    ∃ m', applyOp hashK m op = some m' ∧ m'.Wf ∧
      ∀ q w, m.get hashK q = some w →
        m'.get hashK q = some (specStep q w op) := by
  obtain ⟨hlen, h1, h2, hnodup⟩ := hwf
  cases op with
  | ins k v =>
    obtain ⟨i, hdet, hi⟩ := determine_map_lt hashK ⟨hlen, h1, h2, hnodup⟩ k
    refine ⟨⟨m.ncb, m.submaps.set i (hmInsert (m.submaps.getD i []) k v), m.hash_nonce⟩,
      ?_, ⟨?_, h1, h2, ?_⟩, ?_⟩
    · simp [applyOp, DHashMap.insert, hdet, hi]
    · simpa using hlen
    · intro s hs
      rcases mem_set_shard _ _ _ _ hs with h | h
      · exact hnodup s h
      · subst h
        exact hmInsert_keys_nodup _ _ _ (hnodup _ (getD_mem _ _ _ hi))
    · intro q w hq
      obtain ⟨j, hdetq, hj⟩ := determine_map_lt hashK ⟨hlen, h1, h2, hnodup⟩ q
      rw [get_eval hashK m q j hdetq hj, Option.some.injEq] at hq
      have hj2 : j < (m.submaps.set i (hmInsert (m.submaps.getD i []) k v)).length := by
        simpa using hj
      rw [get_eval hashK _ q j (by rw [determine_map_congr]; exact hdetq) hj2]
      simp only [Option.some.injEq]
      show hmGet ((m.submaps.set i (hmInsert (m.submaps.getD i []) k v)).getD j []) q = _
      rw [getD_set_shard _ _ _ _ hi hj]
      by_cases hkq : k = q
      · subst hkq
        have hij : i = j := by rw [hdet] at hdetq; exact Option.some.inj hdetq
        subst hij
        simp [hmGet_hmInsert_same, specStep]
      · by_cases hij : i = j
        · subst hij
          rw [if_pos rfl, hmGet_hmInsert_ne _ _ _ _ hkq, ← hq]
          simp [specStep, hkq]
        · rw [if_neg hij, ← hq]
          simp [specStep, hkq]
  | rem k =>
    obtain ⟨i, hdet, hi⟩ := determine_map_lt hashK ⟨hlen, h1, h2, hnodup⟩ k
    refine ⟨⟨m.ncb, m.submaps.set i (hmRemove (m.submaps.getD i []) k), m.hash_nonce⟩,
      ?_, ⟨?_, h1, h2, ?_⟩, ?_⟩
    · simp [applyOp, DHashMap.remove, hdet, hi]
    · simpa using hlen
    · intro s hs
      rcases mem_set_shard _ _ _ _ hs with h | h
      · exact hnodup s h
      · subst h
        exact hmRemove_keys_nodup _ _ (hnodup _ (getD_mem _ _ _ hi))
    · intro q w hq
      obtain ⟨j, hdetq, hj⟩ := determine_map_lt hashK ⟨hlen, h1, h2, hnodup⟩ q
      rw [get_eval hashK m q j hdetq hj, Option.some.injEq] at hq
      have hj2 : j < (m.submaps.set i (hmRemove (m.submaps.getD i []) k)).length := by
        simpa using hj
      rw [get_eval hashK _ q j (by rw [determine_map_congr]; exact hdetq) hj2]
      simp only [Option.some.injEq]
      show hmGet ((m.submaps.set i (hmRemove (m.submaps.getD i []) k)).getD j []) q = _
      rw [getD_set_shard _ _ _ _ hi hj]
      by_cases hkq : k = q
      · subst hkq
        have hij : i = j := by rw [hdet] at hdetq; exact Option.some.inj hdetq
        subst hij
        rw [if_pos rfl, hmGet_hmRemove_same _ _ (hnodup _ (getD_mem _ _ _ hi))]
        simp [specStep]
      · by_cases hij : i = j
        · subst hij
          rw [if_pos rfl, hmGet_hmRemove_ne _ _ _ hkq, ← hq]
          simp [specStep, hkq]
        · rw [if_neg hij, ← hq]
          simp [specStep, hkq]

/-- Composition of `applyOp_spec` over a trace. -/
theorem applyOps_spec (hashK : Nat → K → Nat) (ops : List (MapOp K V)) :
    ∀ m : DHashMap K V, m.Wf →
      ∃ m', applyOps hashK m ops = some m' ∧ m'.Wf ∧
        ∀ q w, m.get hashK q = some w →
          m'.get hashK q = some (ops.foldl (specStep q) w) := by
  induction ops with
  | nil =>
    intro m hwf
    exact ⟨m, rfl, hwf, fun q w h => by simpa using h⟩
  | cons op ops ih =>
    intro m hwf
    obtain ⟨m1, hop, hwf1, hstep⟩ := applyOp_spec hashK hwf op
    obtain ⟨m', hops, hwf', hrest⟩ := ih m1 hwf1
    refine ⟨m', ?_, hwf', ?_⟩
    · simp [applyOps, hop, hops]
    · intro q w hq
      simpa using hrest q (specStep q w op) (hstep q w hq)

/-- A freshly constructed map is well-formed for any in-range parameter. -/
theorem new_wf (ncb nonce : Nat) (h1 : 1 ≤ ncb) (h2 : ncb ≤ 63) :
    (DHashMap.new (K := K) (V := V) ncb nonce).Wf := by
  refine ⟨by simp [DHashMap.new], h1, h2, ?_⟩
  intro s hs
  rw [List.eq_of_mem_replicate hs]
  simp

/-- Inversion of a successful `DHashMap::get`. -/
theorem get_inv (hashK : Nat → K → Nat) (m : DHashMap K V) (q : K) (w : Option V)
    (h : m.get hashK q = some w) :
    ∃ j, determine_map hashK m q = some j ∧ j < m.submaps.length ∧
      hmGet (m.submaps.getD j []) q = w := by
  rw [DHashMap.get] at h
  cases hdet : determine_map hashK m q with
  | none => rw [hdet] at h; simp at h
  | some j =>
    rw [hdet] at h
    by_cases hj : j < m.submaps.length
    · refine ⟨j, rfl, hj, ?_⟩
      simp only [Option.some_bind, hj, if_pos, if_true, ite_true, Option.some.injEq] at h
      exact h
    · simp [hj] at h

/-! ## Hash trie lemmas -/

theorem bucketFind_null (hash : Nat → K → Nat) (q : K) :
    bucketFind hash q (Bucket.null : Bucket K V) = none := rfl

theorem bucketFind_leaf (hash : Nat → K → Nat) (q k0 : K) (v0 : V) :
    bucketFind hash q (Bucket.leaf k0 v0 : Bucket K V) =
      if k0 = q then some v0 else none := rfl

theorem bucketFind_branch (hash : Nat → K → Nat) (q : K) (nonce : Nat)
    (buckets : Fin 32 → Bucket K V) :
    bucketFind hash q (Bucket.branch nonce buckets) =
      bucketFind hash q (buckets (slotOf hash nonce q)) := by
  rw [bucketFind]

/-- Lookup in a table freshly built from two distinct-key leaves finds
exactly those two entries. -/
theorem withTwoEntries_find (hash : Nat → K → Nat) (k1 k2 : K) (v1 v2 : V)
    (hne : k1 ≠ k2) :
    ∀ (ns : List Nat) (t : Bucket K V),
      withTwoEntries hash ns (k1, v1) (k2, v2) = some t →
      ∀ q, bucketFind hash q t =
        if q = k1 then some v1 else if q = k2 then some v2 else none := by
  intro ns
  induction ns with
  | nil =>
    intro t ht q
    exact absurd ht (by simp [withTwoEntries])
  | cons n ns ih =>
    intro t ht q
    simp only [withTwoEntries] at ht
    by_cases hp : slotOf hash n k1 = slotOf hash n k2
    · rw [if_pos hp] at ht
      cases hw : withTwoEntries hash ns (k1, v1) (k2, v2) with
      | none => rw [hw] at ht; exact Option.noConfusion ht
      | some inner =>
        rw [hw] at ht
        simp only [Option.map_some', Option.some.injEq] at ht
        rw [← ht, bucketFind_branch]
        by_cases hq : slotOf hash n q = slotOf hash n k1
        · rw [hq, Function.update_same]
          exact ih inner hw q
        · rw [Function.update_noteq hq, bucketFind_null]
          have hq1 : q ≠ k1 := fun hEq => hq (by rw [hEq])
          have hq2 : q ≠ k2 := fun hEq => hq (by rw [hEq, ← hp])
          simp [hq1, hq2]
    · rw [if_neg hp] at ht
      simp only [Option.some.injEq] at ht
      rw [← ht, bucketFind_branch]
      by_cases hq2 : slotOf hash n q = slotOf hash n k2
      · rw [hq2, Function.update_same, bucketFind_leaf]
        by_cases hqk2 : q = k2
        · have h21 : k2 ≠ k1 := fun hEq => hne hEq.symm
          subst hqk2
          simp [h21]
        · have : k2 ≠ q := fun hEq => hqk2 hEq.symm
          rw [if_neg this]
          have hqk1 : q ≠ k1 := fun hEq => hp (by rw [← hEq, hq2])
          simp [hqk1, hqk2]
      · rw [Function.update_noteq hq2]
        by_cases hq1 : slotOf hash n q = slotOf hash n k1
        · rw [hq1, Function.update_same, bucketFind_leaf]
          by_cases hqk1 : q = k1
          · simp [hqk1]
          · have : k1 ≠ q := fun hEq => hqk1 hEq.symm
            rw [if_neg this]
            have hqk2 : q ≠ k2 := fun hEq => hq2 (by rw [hEq])
            simp [hqk1, hqk2]
        · rw [Function.update_noteq hq1, bucketFind_null]
          have hqk1 : q ≠ k1 := fun hEq => hq1 (by rw [hEq])
          have hqk2 : q ≠ k2 := fun hEq => hq2 (by rw [hEq])
          simp [hqk1, hqk2]

/-- A successful insert makes the inserted key readable with the inserted
value. -/
theorem bucketInsert_find_self (hash : Nat → K → Nat) (k : K) (v : V) (ns : List Nat) :
    ∀ t : Bucket K V, t.isBranch →
      ∀ t', bucketInsert hash k v t ns = some t' → bucketFind hash k t' = some v := by
  intro t
  induction t with
  | null => intro hbr; exact absurd hbr (by simp [Bucket.isBranch])
  | leaf k0 v0 => intro hbr; exact absurd hbr (by simp [Bucket.isBranch])
  | branch nonce buckets ih =>
    intro _ t' ht'
    simp only [bucketInsert] at ht'
    cases hcs : buckets (slotOf hash nonce k) with
    | null =>
      rw [hcs] at ht'
      simp only [Option.some.injEq] at ht'
      rw [← ht', bucketFind_branch, Function.update_same, bucketFind_leaf]
      simp
    | leaf k0 v0 =>
      rw [hcs] at ht'
      simp only at ht'
      by_cases hk : k = k0
      · rw [if_pos hk] at ht'
        simp only [Option.some.injEq] at ht'
        rw [← ht', bucketFind_branch, Function.update_same, bucketFind_leaf]
        simp
      · rw [if_neg hk] at ht'
        cases hw : withTwoEntries hash ns (k0, v0) (k, v) with
        | none => rw [hw] at ht'; exact Option.noConfusion ht'
        | some nt =>
          rw [hw] at ht'
          simp only [Option.map_some', Option.some.injEq] at ht'
          rw [← ht', bucketFind_branch, Function.update_same]
          have hne : k0 ≠ k := fun hEq => hk hEq.symm
          rw [withTwoEntries_find hash k0 k v0 v hne ns nt hw k]
          simp [hk]
    | branch n2 b2 =>
      rw [hcs] at ht'
      simp only at ht'
      cases hrec : bucketInsert hash k v (Bucket.branch n2 b2) ns with
      | none => rw [hrec] at ht'; exact Option.noConfusion ht'
      | some nb =>
        rw [hrec] at ht'
        simp only [Option.map_some', Option.some.injEq] at ht'
        rw [← ht', bucketFind_branch, Function.update_same]
        rw [← hcs] at hrec
        exact ih (slotOf hash nonce k) (by rw [hcs]; trivial) nb hrec

/-- A successful insert of a different key leaves the lookup of any other
key unchanged, through branch promotion included. -/
theorem bucketInsert_find_other (hash : Nat → K → Nat) (k' : K) (v' : V) (k : K)
    (hne : k' ≠ k) (ns : List Nat) :
    ∀ t : Bucket K V, ∀ t', bucketInsert hash k' v' t ns = some t' →
      bucketFind hash k t' = bucketFind hash k t := by
  intro t
  induction t with
  | null =>
    intro t' ht'
    simp only [bucketInsert, Option.some.injEq] at ht'
    rw [← ht']
  | leaf k0 v0 =>
    intro t' ht'
    simp only [bucketInsert, Option.some.injEq] at ht'
    rw [← ht']
  | branch nonce buckets ih =>
    intro t' ht'
    simp only [bucketInsert] at ht'
    cases hcs : buckets (slotOf hash nonce k') with
    | null =>
      rw [hcs] at ht'
      simp only [Option.some.injEq] at ht'
      rw [← ht', bucketFind_branch, bucketFind_branch]
      by_cases hs : slotOf hash nonce k = slotOf hash nonce k'
      · rw [hs, Function.update_same, bucketFind_leaf, hcs, bucketFind_null]
        simp [hne]
      · rw [Function.update_noteq hs]
    | leaf k0 v0 =>
      rw [hcs] at ht'
      simp only at ht'
      by_cases hk0 : k' = k0
      · rw [if_pos hk0] at ht'
        simp only [Option.some.injEq] at ht'
        rw [← ht', bucketFind_branch, bucketFind_branch]
        by_cases hs : slotOf hash nonce k = slotOf hash nonce k'
        · rw [hs, Function.update_same, bucketFind_leaf, hcs, bucketFind_leaf]
          have hk0k : k0 ≠ k := hk0 ▸ hne
          simp [hne, hk0k]
        · rw [Function.update_noteq hs]
      · rw [if_neg hk0] at ht'
        cases hw : withTwoEntries hash ns (k0, v0) (k', v') with
        | none => rw [hw] at ht'; exact Option.noConfusion ht'
        | some nt =>
          rw [hw] at ht'
          simp only [Option.map_some', Option.some.injEq] at ht'
          rw [← ht', bucketFind_branch, bucketFind_branch]
          by_cases hs : slotOf hash nonce k = slotOf hash nonce k'
          · rw [hs, Function.update_same, hcs, bucketFind_leaf]
            have hne01 : k0 ≠ k' := fun hEq => hk0 hEq.symm
            rw [withTwoEntries_find hash k0 k' v0 v' hne01 ns nt hw k]
            have hkne : k ≠ k' := fun hEq => hne hEq.symm
            by_cases hkk0 : k = k0
            · simp [hkk0]
            · have hk0k : k0 ≠ k := fun hEq => hkk0 hEq.symm
              simp [hkk0, hkne, hk0k]
          · rw [Function.update_noteq hs]
    | branch n2 b2 =>
      rw [hcs] at ht'
      simp only at ht'
      cases hrec : bucketInsert hash k' v' (Bucket.branch n2 b2) ns with
      | none => rw [hrec] at ht'; exact Option.noConfusion ht'
      | some nb =>
        rw [hrec] at ht'
        simp only [Option.map_some', Option.some.injEq] at ht'
        rw [← ht', bucketFind_branch, bucketFind_branch]
        by_cases hs : slotOf hash nonce k = slotOf hash nonce k'
        · rw [hs, Function.update_same, hcs]
          rw [← hcs] at hrec
          rw [← hcs]
          exact ih (slotOf hash nonce k') nb hrec
        · rw [Function.update_noteq hs]

/-- After `Table::remove(k)` the key `k` reads as absent: whatever leaf
occupied the slot on k's descent path (k's own or a colliding one) is gone. -/
theorem bucketRemove_find_self (hash : Nat → K → Nat) (k : K) :
    ∀ t : Bucket K V, t.isBranch →
      bucketFind hash k (bucketRemove hash k t) = none := by
  intro t
  induction t with
  | null => intro hbr; exact absurd hbr (by simp [Bucket.isBranch])
  | leaf k0 v0 => intro hbr; exact absurd hbr (by simp [Bucket.isBranch])
  | branch nonce buckets ih =>
    intro _
    cases hcs : buckets (slotOf hash nonce k) with
    | null =>
      simp only [bucketRemove, hcs]
      rw [bucketFind_branch, hcs, bucketFind_null]
    | leaf k0 v0 =>
      simp only [bucketRemove, hcs]
      rw [bucketFind_branch, Function.update_same, bucketFind_null]
    | branch n2 b2 =>
      have ihb : bucketFind hash k (bucketRemove hash k (Bucket.branch n2 b2)) = none := by
        rw [← hcs]
        exact ih (slotOf hash nonce k) (by rw [hcs]; trivial)
      rw [show bucketRemove hash k (Bucket.branch nonce buckets) =
          Bucket.branch nonce (Function.update buckets (slotOf hash nonce k)
            (bucketRemove hash k (Bucket.branch n2 b2))) from by
        simp only [bucketRemove, hcs]]
      rw [bucketFind_branch, Function.update_same]
      exact ihb

/-- Removing a key whose descent does not end on the target key's leaf
leaves the target's lookup unchanged. This is the amended locality of
`Table::remove`: the unlinked leaf is keyed by `removeVictim`, not by the
requested key. -/
theorem bucketRemove_find_other (hash : Nat → K → Nat) (k' k : K) :
    ∀ t : Bucket K V, removeVictim hash k' t ≠ some k →
      bucketFind hash k (bucketRemove hash k' t) = bucketFind hash k t := by
  intro t
  induction t with
  | null => intro hv; rfl
  | leaf k0 v0 => intro hv; rfl
  | branch nonce buckets ih =>
    intro hv
    cases hcs : buckets (slotOf hash nonce k') with
    | null =>
      simp only [bucketRemove, hcs]
    | leaf k0 v0 =>
      have hk0 : k0 ≠ k := by
        intro hEq
        refine hv ?_
        simp only [removeVictim, hcs, hEq]
      simp only [bucketRemove, hcs]
      rw [bucketFind_branch, bucketFind_branch]
      by_cases hs : slotOf hash nonce k = slotOf hash nonce k'
      · rw [hs, Function.update_same, bucketFind_null, hcs, bucketFind_leaf, if_neg hk0]
      · rw [Function.update_noteq hs]
    | branch n2 b2 =>
      have hv2 : removeVictim hash k' (buckets (slotOf hash nonce k')) ≠ some k := by
        intro hc
        refine hv ?_
        simp only [removeVictim, hcs]
        rw [hcs] at hc
        exact hc
      have ihb : bucketFind hash k (bucketRemove hash k' (Bucket.branch n2 b2)) =
          bucketFind hash k (Bucket.branch n2 b2) := by
        rw [← hcs]
        exact ih (slotOf hash nonce k') hv2
      rw [show bucketRemove hash k' (Bucket.branch nonce buckets) =
          Bucket.branch nonce (Function.update buckets (slotOf hash nonce k')
            (bucketRemove hash k' (Bucket.branch n2 b2))) from by
        simp only [bucketRemove, hcs]]
      rw [bucketFind_branch, bucketFind_branch]
      by_cases hs : slotOf hash nonce k = slotOf hash nonce k'
      · rw [hs, Function.update_same, hcs]
        exact ihb
      · rw [Function.update_noteq hs]

/-! ## Theorems -/

/-- C2 counterexample: the claim fails as stated. Insert key 0 with value 7
into an empty trie; key 32 is a different key whose hash residue collides
with key 0 at the root level under `natHash`. `Table::remove(32)` unlinks
the leaf of key 0 without comparing keys, so `get(0)` changes from `some 7`
to none although neither `remove(0)` nor `insert(0, _)` was called. -/
theorem trie_remove_collision_counterexample :
    bucketInsert natHash 0 7 (emptyTable 0) [1] = some c2t1 ∧
    bucketFind natHash 0 c2t1 = some 7 ∧
    (32 : Nat) ≠ 0 ∧
    bucketFind natHash 0 (bucketRemove natHash 32 c2t1) = none := by
  refine ⟨rfl, rfl, by decide, rfl⟩

/-- C2 (amended): on the hash trie, after a successful `insert(k, v)`,
`get(k)` returns `some v`; a successful insert of a different key preserves
`get(k)`; `remove(k)` makes `get(k)` absent; and `remove(k')` for `k' ≠ k`
preserves `get(k)` PROVIDED the leaf that remove's descent for `k'` unlinks
is not keyed `k` — the source removes the occupant of the colliding slot
without a key comparison, so a hash-colliding remove may drop `k`. -/
theorem trie_insert_get_remove_amended (hash : Nat → K → Nat) (ns ns2 : List Nat)
    (t : Bucket K V) (k k' : K) (v v' : V)
    (hbr : t.isBranch) (hne : k' ≠ k) :
    (∀ tI, bucketInsert hash k v t ns = some tI → bucketFind hash k tI = some v) ∧
    (∀ t', bucketInsert hash k' v' t ns2 = some t' →
      bucketFind hash k t' = bucketFind hash k t) ∧
    bucketFind hash k (bucketRemove hash k t) = none ∧
    (removeVictim hash k' t ≠ some k →
      bucketFind hash k (bucketRemove hash k' t) = bucketFind hash k t) :=
  ⟨fun tI h => bucketInsert_find_self hash k v ns t hbr tI h,
   fun t' h => bucketInsert_find_other hash k' v' k hne ns2 t t' h,
   bucketRemove_find_self hash k t hbr,
   fun hv => bucketRemove_find_other hash k' k t hv⟩

/-- Witness for the amended C2 on an empty table with nonce 5, keys 1 and 2. -/
theorem trie_insert_get_remove_amended_witness :
    (∀ tI, bucketInsert natHash 1 10 (emptyTable (K := Nat) (V := Nat) 5) [3] = some tI →
      bucketFind natHash 1 tI = some 10) ∧
    (∀ t', bucketInsert natHash 2 20 (emptyTable (K := Nat) (V := Nat) 5) [4] = some t' →
      bucketFind natHash 1 t' = bucketFind natHash 1 (emptyTable (K := Nat) (V := Nat) 5)) ∧
    bucketFind natHash 1 (bucketRemove natHash 1 (emptyTable (K := Nat) (V := Nat) 5)) =
      none ∧
    (removeVictim natHash 2 (emptyTable (K := Nat) (V := Nat) 5) ≠ some 1 →
      bucketFind natHash 1 (bucketRemove natHash 2 (emptyTable (K := Nat) (V := Nat) 5)) =
        bucketFind natHash 1 (emptyTable (K := Nat) (V := Nat) 5)) :=
  trie_insert_get_remove_amended natHash [3] [4] (emptyTable 5) 1 2 10 20
    (by simp [emptyTable, Bucket.isBranch]) (by decide)

/-- C10: `ConcurrentStack::pop()` returns none exactly when the stack is
empty when the head is loaded, leaving the stack unchanged in that case; a
pop that returns some yields the value of the head node, i.e. the most
recently pushed element that has not yet been popped (LIFO order in
single-threaded use). -/
theorem stack_pop_contract {T : Type} (s : ConcurrentStack T) (x : T) :
    ((stackPop s).1 = none ↔ s = []) ∧
    ((stackPop s).1 = none → (stackPop s).2 = s) ∧
    stackPop (stackPush s x) = (some x, s) := by
  refine ⟨?_, ?_, ?_⟩
  · cases s <;> simp [stackPop]
  · cases s <;> simp [stackPop]
  · cases s <;> rfl

/-- Any slab segment whose live object count does not exceed its slab
capacity advertises zero space, because the source computes
`len().saturating_sub(capacity())` instead of the remaining capacity. -/
theorem has_space_eq_zero (s : SlabSegment) (h : s.len ≤ s.capacity) :
    s.has_space = 0 :=
  Nat.sub_eq_zero_of_le h

/-- C3 (code bug): `UniformAllocator::alloc(tag)` does not terminate. For
every pool state in which no segment has more live objects than capacity
(every reachable slab state), and for every fuel bound, the allocation loop
fails to reserve a slot: `has_space` is identically zero, so the scan skips
every segment, appends a fresh one, skips it too, and repeats forever. -/
theorem uniform_alloc_loops_forever (pool_count : Nat) (pools : Nat → List SlabSegment)
    (fuel tag : Nat)
    (hinv : ∀ s ∈ pools (tag % pool_count), s.len ≤ s.capacity) :
    uniformAlloc pool_count pools fuel tag = none := by
  unfold uniformAlloc
  generalize pools (tag % pool_count) = segments at hinv
  suffices h : ∀ fuel segments idx, (∀ s ∈ segments, s.len ≤ s.capacity) →
      poolAllocLoop fuel segments idx = none from h fuel segments 0 hinv
  intro fuel
  induction fuel with
  | zero => intro segments idx _; rfl
  | succ n ih =>
    intro segments idx hsegs
    rw [poolAllocLoop]
    cases hget : segments[idx]? with
    | some seg =>
      have hmem : seg ∈ segments := by
        rcases List.getElem?_eq_some.mp hget with ⟨hlt, hEq⟩
        exact hEq ▸ List.getElem_mem hlt
      simp only [hget, has_space_eq_zero seg (hsegs seg hmem), ne_eq,
        not_true_eq_false, if_false, ite_false]
      exact ih segments (idx + 1) hsegs
    | none =>
      simp only [hget]
      refine ih _ 0 ?_
      intro s hs
      rcases List.mem_cons.mp hs with h | h
      · subst h; exact Nat.zero_le _
      · exact hsegs s h

/-- Witness for C3: a fresh allocator (four empty pools) with fuel 500 makes
no allocation for tag 0. -/
theorem uniform_alloc_loops_forever_witness :
    uniformAlloc 4 (fun _ => []) 500 0 = none :=
  uniform_alloc_loops_forever 4 (fun _ => []) 500 0 (by simp)

/-- C5: when the purge interval has elapsed, `TimedCache::do_check` evicts
exactly those entries that, at the moment `retain` consults them (i.e. after
the save pass of the same call has possibly set clean bits), are older than
the validity window and have the clean bit set; a dirty entry is never
evicted and an entry younger than the validity window is never evicted. -/
theorem timedcache_evicts_exactly_old_clean {K V : Type} [DecidableEq K]
    (save : K → V → Bool) (now : Nat) (c : TimedCache K V)
    (hp : now - c.last_purged > c.valid_check_interval) :
    ∃ mid : List (K × V × Nat × Bool),
      (mid = if now - c.last_saved > c.save_interval
        then c.storage.map (check_save_item save) else c.storage) ∧
      (c.do_check save now).1.storage =
        mid.filter (fun e => !check_to_evict now c.valid_duration e) ∧
      (∀ e ∈ mid, e.2.2.2 = false → e ∈ (c.do_check save now).1.storage) ∧
      (∀ e ∈ mid, ¬ (now - e.2.2.1 > c.valid_duration) → e ∈ (c.do_check save now).1.storage) ∧
      (∀ e ∈ mid, e ∉ (c.do_check save now).1.storage →
        now - e.2.2.1 > c.valid_duration ∧ e.2.2.2 = true) ∧
      (∀ e ∈ mid, now - e.2.2.1 > c.valid_duration → e.2.2.2 = true →
        e ∉ (c.do_check save now).1.storage) := by
  have hps : decide (now - c.last_purged > c.valid_check_interval) = true := decide_eq_true hp
  refine ⟨if now - c.last_saved > c.save_interval
    then c.storage.map (check_save_item save) else c.storage, rfl, ?_, ?_, ?_, ?_, ?_⟩
  · simp only [TimedCache.do_check, hps, if_true, ite_true, decide_eq_true_eq]
  · intro e hmem hdirty
    obtain ⟨k, v, t, b⟩ := e
    simp only at hdirty
    subst hdirty
    simp only [TimedCache.do_check, hps, if_true, ite_true, decide_eq_true_eq]
    exact List.mem_filter.mpr ⟨hmem, by simp [check_to_evict]⟩
  · intro e hmem hyoung
    obtain ⟨k, v, t, b⟩ := e
    simp only at hyoung
    simp only [TimedCache.do_check, hps, if_true, ite_true, decide_eq_true_eq]
    exact List.mem_filter.mpr ⟨hmem, by simp [check_to_evict, hyoung]⟩
  · intro e hmem hout
    obtain ⟨k, v, t, b⟩ := e
    simp only [TimedCache.do_check, hps, if_true, ite_true, decide_eq_true_eq] at hout
    by_contra hcon
    push_neg at hcon
    refine hout (List.mem_filter.mpr ⟨hmem, ?_⟩)
    simp only [check_to_evict, Bool.not_eq_true', Bool.and_eq_false_iff, decide_eq_false_iff_not]
    by_cases hold : now - t > c.valid_duration
    · exact Or.inr (by simpa using hcon hold)
    · exact Or.inl (by simpa using hold)
  · intro e hmem hold hclean
    obtain ⟨k, v, t, b⟩ := e
    simp only at hold hclean
    subst hclean
    simp only [TimedCache.do_check, hps, if_true, ite_true, decide_eq_true_eq]
    intro hin
    have := (List.mem_filter.mp hin).2
    simp [check_to_evict, hold] at this

/-- Witness for C5: on the example cache at instant 100 only the old clean
entry is evicted; the old dirty entry and the young entry survive. -/
theorem timedcache_evicts_exactly_old_clean_witness :
    (TimedCache.do_check c5save 100 c5cache).1.storage =
      [(2, 20, 0, false), (3, 30, 95, true)] := by
  obtain ⟨mid, hmid, hfilter, _⟩ :=
    timedcache_evicts_exactly_old_clean c5save 100 c5cache (by decide)
  rw [hfilter, hmid]
  decide

/-- C6: every `map_mut` call leaves the entry for its key dirty; a
`do_check` whose save interval has elapsed invokes the save function on
every dirty entry (the key log is the dirty keys); the clean bit of a dirty
entry is set only when save returned true for it, so an entry whose save
returned false stays dirty. -/
theorem timedcache_dirty_save_contract {K V : Type} [DecidableEq K]
    (load : K → Option V) (save : K → V → Bool) (now : Nat) (f : V → V)
    (c : TimedCache K V) (k : K)
    (hs : now - c.last_saved > c.save_interval) :
    (∀ c1, TimedCache.map_mut load now f c k = some c1 →
      ∃ v t, hmGet c1.storage k = some (v, t, false)) ∧
    (∀ e ∈ c.storage, e.2.2.2 = false → e.1 ∈ (c.do_check save now).2) ∧
    ((c.do_check save now).1.storage = c.storage.map (check_save_item save) ∨
      (c.do_check save now).1.storage =
        (c.storage.map (check_save_item save)).filter
          (fun e => !check_to_evict now c.valid_duration e)) ∧
    (∀ e ∈ c.storage, e.2.2.2 = false → save e.1 e.2.1 = false →
      check_save_item save e = (e.1, e.2.1, e.2.2.1, false)) ∧
    (∀ e ∈ c.storage, e.2.2.2 = false → save e.1 e.2.1 = true →
      check_save_item save e = (e.1, e.2.1, e.2.2.1, true)) ∧
    (∀ e ∈ c.storage, (check_save_item save e).2.2.2 = true →
      e.2.2.2 = true ∨ save e.1 e.2.1 = true) := by
  have hss : decide (now - c.last_saved > c.save_interval) = true := decide_eq_true hs
  refine ⟨?_, ?_, ?_, ?_, ?_, ?_⟩
  · intro c1 hc1
    unfold TimedCache.map_mut at hc1
    dsimp only at hc1
    cases hget : hmGet ((c.load_item load now k).storage) k with
    | none => rw [hget] at hc1; exact absurd hc1 (by simp)
    | some e =>
      obtain ⟨v, t, b⟩ := e
      rw [hget] at hc1
      simp only [Option.some.injEq] at hc1
      subst hc1
      exact ⟨f v, t, hmGet_hmInsert_same _ k _⟩
  · intro e hmem hdirty
    obtain ⟨k0, v, t, b⟩ := e
    simp only at hdirty
    subst hdirty
    simp only [TimedCache.do_check, hss, if_true, ite_true]
    exact List.mem_map.mpr ⟨(k0, v, t, false), List.mem_filter.mpr ⟨hmem, by simp⟩, rfl⟩
  · simp only [TimedCache.do_check, hss, if_true, ite_true]
    by_cases hpg : now - c.last_purged > c.valid_check_interval
    · exact Or.inr (by simp [decide_eq_true hpg])
    · exact Or.inl (by simp [decide_eq_false hpg])
  · intro e hmem hdirty hsave
    obtain ⟨k0, v, t, b⟩ := e
    simp only at hdirty hsave
    subst hdirty
    simp [check_save_item, hsave]
  · intro e hmem hdirty hsave
    obtain ⟨k0, v, t, b⟩ := e
    simp only at hdirty hsave
    subst hdirty
    simp [check_save_item, hsave]
  · intro e hmem hclean
    obtain ⟨k0, v, t, b⟩ := e
    cases b with
    | true => exact Or.inl rfl
    | false =>
      refine Or.inr ?_
      by_contra hcon
      simp [check_save_item, Bool.eq_false_iff.mpr hcon] at hclean

/-- Witness for C6: after `map_mut` on key 7 (loaded as 0) the entry for 7
is dirty, and `do_check` at instant 100 invokes save on both dirty keys of
the example cache. -/
theorem timedcache_dirty_save_contract_witness :
    (∀ c1, TimedCache.map_mut (fun _ => some 0) 100 (fun v => v + 1) c6cache 7 = some c1 →
      ∃ v t, hmGet c1.storage 7 = some (v, t, false)) ∧
    1 ∈ (TimedCache.do_check c6save 100 c6cache).2 ∧
    2 ∈ (TimedCache.do_check c6save 100 c6cache).2 := by
  obtain ⟨hmut, hlog, _⟩ :=
    timedcache_dirty_save_contract (fun _ => some 0) c6save 100 (fun v => v + 1)
      c6cache 7 (by decide)
  refine ⟨hmut, ?_, ?_⟩
  · exact hlog (1, 10, 0, false) (by decide) rfl
  · exact hlog (2, 20, 0, false) (by decide) rfl

/-- C1: in a single-threaded sequence of inserts and removes applied to a
freshly constructed sharded map, `get(k)` returns exactly the last value
inserted for `k` and not erased by a later remove of `k`: two inserts of `k`
leave the second value, and a key never inserted (or removed and not
re-inserted) reads as none. -/
theorem dhashmap_trace_get (hashK : Nat → K → Nat) (ncb nonce : Nat)
    (h1 : 1 ≤ ncb) (h2 : ncb ≤ 63)
    (ops : List (MapOp K V)) (m : DHashMap K V)
    (hm : applyOps hashK (DHashMap.new ncb nonce) ops = some m) (k : K) :
    m.get hashK k = some (specLookup ops k) := by
  have hwf := new_wf (K := K) (V := V) ncb nonce h1 h2
  obtain ⟨m', hops, hwf', hget⟩ := applyOps_spec hashK ops _ hwf
  obtain ⟨i, hdet, hi⟩ := determine_map_lt hashK hwf k
  have hshard : (DHashMap.new (K := K) (V := V) ncb nonce).submaps.getD i [] = [] := by
    exact List.eq_of_mem_replicate (getD_mem _ _ _ hi)
  have hempty : (DHashMap.new (K := K) (V := V) ncb nonce).get hashK k = some none := by
    rw [get_eval hashK _ k i hdet hi, hshard]
    rfl
  have hmm : m = m' := by
    rw [hm] at hops
    exact Option.some.inj hops
  rw [hmm]
  exact hget k none hempty

/-- Witness for C1: inserting 1 then 2 at key 5 into a two-shard map leaves
`get 5 = some 2`. -/
theorem dhashmap_trace_get_witness :
    DHashMap.get natHash (⟨1, [[(5, 2)], []], 0⟩ : DHashMap Nat Nat) 5 = some (some 2) := by
  have h := dhashmap_trace_get natHash 1 0 (by decide) (by decide)
    [MapOp.ins 5 1, MapOp.ins 5 2] (⟨1, [[(5, 2)], []], 0⟩ : DHashMap Nat Nat) (by rfl) 5
  have h2 : specLookup [MapOp.ins 5 1, MapOp.ins (V := Nat) 5 2] 5 = some 2 := rfl
  rw [h2] at h
  exact h

/-- C4 counterexample: with `new(0)` the shard index is never computed as 0:
`determine_map` shifts the 64-bit hash right by `ptr_size_bits - 0 = 64`,
which is an arithmetic overflow (modelled as none), and `get` consequently
fails rather than behaving as on any map; only the single-shard allocation
itself succeeds. -/
theorem determine_map_new0_counterexample :
    determine_map natHash (DHashMap.new (K := Nat) (V := Nat) 0 0) 5 ≠ some 0 ∧
    DHashMap.get natHash (DHashMap.new (K := Nat) (V := Nat) 0 0) 5 = none ∧
    (DHashMap.new (K := Nat) (V := Nat) 0 0).submaps.length = 1 := by
  refine ⟨?_, rfl, rfl⟩
  intro h
  rw [show determine_map natHash (DHashMap.new (K := Nat) (V := Nat) 0 0) 5 = none from rfl]
    at h
  exact Option.noConfusion h

/-- C4 (amended): `DHashMap::new(0)` does allocate exactly one shard, but the
shift by `ptr_bits - 0 = 64` on the 64-bit hash overflows, so `determine_map`
is undefined (debug panic; masked out-of-bounds shard index in release) and
the map contracts fail for it; for every construction parameter `1 ≤ k ≤ 63`
the computed shard index is defined and in bounds of the `2^k` shards. -/
theorem dhashmap_new0_amended (hashK : Nat → K → Nat) (key : K) (nonce ncb : Nat)
    (h1 : 1 ≤ ncb) (h2 : ncb ≤ 63) :
    (DHashMap.new (K := K) (V := V) 0 nonce).submaps.length = 1 ∧
    determine_map hashK (DHashMap.new (K := K) (V := V) 0 nonce) key = none ∧
    ∃ i, determine_map hashK (DHashMap.new (K := K) (V := V) ncb nonce) key = some i ∧
      i < (DHashMap.new (K := K) (V := V) ncb nonce).submaps.length := by
  refine ⟨by simp [DHashMap.new], ?_, ?_⟩
  · simp [determine_map, DHashMap.new, ptr_size_bits]
  · exact determine_map_lt hashK (new_wf ncb nonce h1 h2) key

/-- Witness for the amended C4 at `k = 1`, key 5. -/
theorem dhashmap_new0_amended_witness :
    (DHashMap.new (K := Nat) (V := Nat) 0 0).submaps.length = 1 ∧
    determine_map natHash (DHashMap.new (K := Nat) (V := Nat) 0 0) 5 = none ∧
    ∃ i, determine_map natHash (DHashMap.new (K := Nat) (V := Nat) 1 0) 5 = some i ∧
      i < (DHashMap.new (K := Nat) (V := Nat) 1 0).submaps.length :=
  dhashmap_new0_amended natHash 5 0 1 (by decide) (by decide)

/-- C9: on a well-formed map with no concurrent mutation, `contains_key(q)`
is true exactly when `get(q)` returns a value: both route through the same
`determine_map` under the same per-map nonce and consult the same shard
table. -/
theorem contains_key_iff_get (hashK : Nat → K → Nat) {m : DHashMap K V}
    (hwf : m.Wf) (q : K) :
    m.contains_key hashK q = some true ↔ ∃ v, m.get hashK q = some (some v) := by
  obtain ⟨j, hdet, hj⟩ := determine_map_lt hashK hwf q
  have hg := get_eval hashK m q j hdet hj
  have hc : m.contains_key hashK q = some (hmContains (m.submaps.getD j []) q) := by
    rw [DHashMap.contains_key, hdet]
    simp [hj]
  rw [hc, hg]
  unfold hmContains
  cases hget : hmGet (m.submaps.getD j []) q with
  | none => simp [hget]
  | some v => simp [hget]

/-- Witness for C9 on a concrete two-shard map holding key 5. -/
theorem contains_key_iff_get_witness :
    DHashMap.contains_key natHash (⟨1, [[(5, 2)], []], 0⟩ : DHashMap Nat Nat) 5 = some true ↔
      ∃ v, DHashMap.get natHash (⟨1, [[(5, 2)], []], 0⟩ : DHashMap Nat Nat) 5 =
        some (some v) :=
  contains_key_iff_get natHash (by refine ⟨rfl, by decide, by decide, ?_⟩; decide) 5

/-- C8: `try_get(q)` returns WouldBlock exactly when the owning shard's read
lock cannot be acquired at that moment, InvalidKey exactly when the lock is
acquired but `q` is absent from that shard, and otherwise a guarded
reference to the stored value. -/
theorem try_get_characterization (hashK : Nat → K → Nat) (locks : Nat → LockState)
    {m : DHashMap K V} (hwf : m.Wf) (q : K) :
    ∃ i, determine_map hashK m q = some i ∧
      (m.try_get hashK locks q = some (Except.error TryGetError.WouldBlock) ↔
        tryRead (locks i) = false) ∧
      (m.try_get hashK locks q = some (Except.error TryGetError.InvalidKey) ↔
        tryRead (locks i) = true ∧ m.get hashK q = some none) ∧
      (∀ v, m.try_get hashK locks q = some (Except.ok v) ↔
        tryRead (locks i) = true ∧ m.get hashK q = some (some v)) := by
  obtain ⟨i, hdet, hi⟩ := determine_map_lt hashK hwf q
  have hg := get_eval hashK m q i hdet hi
  have ht : m.try_get hashK locks q =
      (if tryRead (locks i) then
        match hmGet (m.submaps.getD i []) q with
        | some v => some (Except.ok v)
        | none => some (Except.error TryGetError.InvalidKey)
      else some (Except.error TryGetError.WouldBlock)) := by
    rw [DHashMap.try_get, hdet]
    simp [hi]
  refine ⟨i, hdet, ?_, ?_, ?_⟩
  · rw [ht]
    cases htr : tryRead (locks i) <;>
      cases hget : hmGet (m.submaps.getD i []) q <;> simp [hget]
  · rw [ht, hg]
    cases htr : tryRead (locks i) <;>
      cases hget : hmGet (m.submaps.getD i []) q <;> simp [hget]
  · intro v
    rw [ht, hg]
    cases htr : tryRead (locks i) <;>
      cases hget : hmGet (m.submaps.getD i []) q <;> simp [hget]

/-- Witness for C8: with shard 0 write-locked, `try_get 5` is WouldBlock on
a concrete map; with all locks free it returns the stored value. -/
theorem try_get_characterization_witness :
    DHashMap.try_get natHash (fun _ => LockState.writeLocked)
        (⟨1, [[(5, 2)], []], 0⟩ : DHashMap Nat Nat) 5 =
      some (Except.error TryGetError.WouldBlock) ∧
    DHashMap.try_get natHash (fun _ => LockState.unlocked)
        (⟨1, [[(5, 2)], []], 0⟩ : DHashMap Nat Nat) 5 = some (Except.ok 2) := by
  constructor
  · obtain ⟨i, hdet, hwb, _, _⟩ := try_get_characterization natHash
      (fun _ => LockState.writeLocked)
      (m := (⟨1, [[(5, 2)], []], 0⟩ : DHashMap Nat Nat))
      (by refine ⟨rfl, by decide, by decide, ?_⟩; decide) 5
    exact hwb.mpr rfl
  · obtain ⟨i, hdet, _, _, hok⟩ := try_get_characterization natHash
      (fun _ => LockState.unlocked)
      (m := (⟨1, [[(5, 2)], []], 0⟩ : DHashMap Nat Nat))
      (by refine ⟨rfl, by decide, by decide, ?_⟩; decide) 5
    exact (hok 2).mpr ⟨rfl, rfl⟩

/-- C7: `get_or_insert(k, default)` run twice in succession returns on the
second call the same value as the first, without inserting again; the
default is inserted only on the missing-key path (where `get` was none); and
the write section re-checks presence, so on a state where the key is
present it returns the existing value unchanged and does not insert the
default over it. -/
theorem get_or_insert_contract (hashK : Nat → K → Nat) {m : DHashMap K V}
    (hwf : m.Wf) (k : K) (d d2 : V) :
    (∀ v1 m1 b1, m.get_or_insert hashK k d = some (v1, m1, b1) →
      m1.get_or_insert hashK k d2 = some (v1, m1, false)) ∧
    (∀ v1 m1, m.get_or_insert hashK k d = some (v1, m1, true) →
      m.get hashK k = some none ∧ v1 = d) ∧
    (∀ (m2 : DHashMap K V) (v : V), m2.get hashK k = some (some v) →
      m2.get_or_insert_write hashK k d = some (v, m2, false)) := by
  obtain ⟨i, hdet, hi⟩ := determine_map_lt hashK hwf k
  have hrecheck : ∀ (m2 : DHashMap K V) (v : V), m2.get hashK k = some (some v) →
      m2.get_or_insert_write hashK k d = some (v, m2, false) := by
    intro m2 v hm2
    obtain ⟨j, hdet2, hj2, hget2⟩ := get_inv hashK m2 k (some v) hm2
    rw [DHashMap.get_or_insert_write, hdet2, Option.some_bind, if_pos hj2, hget2]
  refine ⟨?_, ?_, hrecheck⟩
  · intro v1 m1 b1 hfirst
    rw [DHashMap.get_or_insert, hdet, Option.some_bind, if_pos hi] at hfirst
    cases hget : hmGet (m.submaps.getD i []) k with
    | some v =>
      rw [hget] at hfirst
      simp only [Option.some.injEq, Prod.mk.injEq] at hfirst
      obtain ⟨hv, hm1, hb⟩ := hfirst
      subst hv hm1
      rw [DHashMap.get_or_insert, hdet, Option.some_bind, if_pos hi, hget]
    | none =>
      rw [hget, DHashMap.get_or_insert_write, hdet, Option.some_bind, if_pos hi, hget]
        at hfirst
      simp only [Option.some.injEq, Prod.mk.injEq] at hfirst
      obtain ⟨hv, hm1, hb⟩ := hfirst
      subst hv
      have hm1get : hmGet (m1.submaps.getD i []) k = some d := by
        rw [← hm1]
        show hmGet ((m.submaps.set i (hmInsert (m.submaps.getD i []) k d)).getD i []) k = _
        rw [getD_set_shard _ _ _ _ hi hi, if_pos rfl]
        exact hmGet_hmInsert_same _ _ _
      have hdet1 : determine_map hashK m1 k = some i := by
        rw [← hm1, determine_map_congr]
        exact hdet
      have hi1 : i < m1.submaps.length := by
        rw [← hm1]
        simpa using hi
      rw [DHashMap.get_or_insert, hdet1, Option.some_bind, if_pos hi1, hm1get]
  · intro v1 m1 hfirst
    rw [DHashMap.get_or_insert, hdet, Option.some_bind, if_pos hi] at hfirst
    cases hget : hmGet (m.submaps.getD i []) k with
    | some v =>
      rw [hget] at hfirst
      simp at hfirst
    | none =>
      rw [hget, DHashMap.get_or_insert_write, hdet, Option.some_bind, if_pos hi, hget]
        at hfirst
      simp only [Option.some.injEq, Prod.mk.injEq] at hfirst
      refine ⟨?_, hfirst.1.symm⟩
      rw [get_eval hashK m k i hdet hi, hget]

/-- Witness for C7: on a concrete two-shard map without key 9, get_or_insert
inserts the default 4 and a repeated call returns the same value without
inserting; the write section on a state already holding 9 returns the
existing value. -/
theorem get_or_insert_contract_witness :
    (∀ v1 m1 b1,
      DHashMap.get_or_insert natHash (⟨1, [[(5, 2)], []], 0⟩ : DHashMap Nat Nat) 9 4 =
        some (v1, m1, b1) →
      DHashMap.get_or_insert natHash m1 9 7 = some (v1, m1, false)) ∧
    (∀ v1 m1,
      DHashMap.get_or_insert natHash (⟨1, [[(5, 2)], []], 0⟩ : DHashMap Nat Nat) 9 4 =
        some (v1, m1, true) →
      DHashMap.get natHash (⟨1, [[(5, 2)], []], 0⟩ : DHashMap Nat Nat) 9 = some none ∧
        v1 = 4) ∧
    (∀ (m2 : DHashMap Nat Nat) (v : Nat), DHashMap.get natHash m2 9 = some (some v) →
      DHashMap.get_or_insert_write natHash m2 9 4 = some (v, m2, false)) :=
  get_or_insert_contract natHash (by refine ⟨rfl, by decide, by decide, ?_⟩; decide) 9 4 7

end Ccl
